import Mathlib

/-!
Verification of a 9×9 sudoku solver that works by iterative candidate
elimination (an elimination pass plus a "hidden single" pass, repeated
until the grid stabilises or is complete), followed by an assert-based
verifier.

The embedding mirrors the source:
* a cell is `Option ℕ` (`none` is the unknown marker `"X"`, `some v` a digit);
* the board is a total function `ℕ × ℕ → Option ℕ` (only coordinates below
  9 are ever read or written);
* the dictionary of unknowns is a fixed, row-major list of keys (Python
  dicts iterate in insertion order and the solver never adds or removes
  keys) together with a candidate-list valuation `Key → List ℕ`;
* the `while` loop is modelled with fuel 82, which is proved sufficient
  (the loop never returns the artificial `running` outcome).
-/

namespace Sudsolve

/-- A cell coordinate: (row, column). -/
abbrev Key := ℕ × ℕ

/-- A cell is either a resolved symbol `some v` or the unknown marker `none`. -/
abbrev Cell := Option ℕ

/-- The 9×9 grid, as a total map from coordinates to cells. -/
abbrev Board := Key → Cell

/-- Solver state: the grid plus the candidate lists of the unknowns dict. -/
structure SState where
  board : Board
  cands : Key → List ℕ

/-- Grid update at a single coordinate. -/
def updB (b : Board) (k : Key) (v : ℕ) : Board :=
  fun p => if p = k then some v else b p

/-- Candidate-list update at a single coordinate. -/
def updC (c : Key → List ℕ) (k : Key) (l : List ℕ) : Key → List ℕ :=
  fun p => if p = k then l else c p

/-- `get_row`: the resolved values present in row `X` (the `"X"` markers are
filtered out). -/
def getRow (b : Board) (X : ℕ) : List ℕ :=
  (List.range 9).filterMap fun j => b (X, j)

/-- `get_column`: the resolved values present in column `Y`. -/
def getColumn (b : Board) (Y : ℕ) : List ℕ :=
  (List.range 9).filterMap fun i => b (i, Y)

/-- `get_square`: the resolved values present in the 3×3 box of `(X, Y)`,
scanned in the source's row-major order. -/
def getSquare (b : Board) (X Y : ℕ) : List ℕ :=
  (List.range 3).flatMap fun di =>
    (List.range 3).filterMap fun dj => b (X / 3 * 3 + di, Y / 3 * 3 + dj)

/-- The body of `remove_impossible_values`: the candidate list is filtered
against the union of the values present in the cell's row, column and box. -/
def removeImpossibleValues (X Y : ℕ) (possible : List ℕ) (b : Board) : List ℕ :=
  let impossible := getRow b X ++ getColumn b Y ++ getSquare b X Y
  possible.filter fun x => decide (x ∉ impossible)

/-- One iteration of the elimination loop of `solve_board`: recompute the
candidate list of `k` from the live grid, and if it became a singleton write
that value into the grid immediately. -/
def elimStep (st : SState) (k : Key) : SState :=
  let poss := removeImpossibleValues k.1 k.2 (st.cands k) st.board
  { board := if poss.length = 1 then updB st.board k (poss.headD 0) else st.board
    cands := updC st.cands k poss }

/-- The elimination pass: the elimination step over every tracked key, in
dictionary (row-major insertion) order; later cells see earlier writes. -/
def elimPass (keys : List Key) (st : SState) : SState :=
  keys.foldl elimStep st

/-- The nine coordinates of the 3×3 box containing `k`, in source order. -/
def squareCoords (k : Key) : List Key :=
  (List.range 3).flatMap fun i =>
    (List.range 3).map fun j => (k.1 / 3 * 3 + i, k.2 / 3 * 3 + j)

/-- `check_only_possible_location`: `value` is forced into `k` when it is
absent from the union of the candidate lists of all *other* tracked cells of
at least one of `k`'s three groups.  The box part uses `unknowns.get(-, [])`,
i.e. an empty list for box coordinates that are not tracked. -/
def checkOnlyPossibleLocation (keys : List Key) (cands : Key → List ℕ)
    (k : Key) (value : ℕ) : Bool :=
  let row := (keys.filter fun x => decide (x.1 = k.1 ∧ x ≠ k)).flatMap cands
  let column := (keys.filter fun x => decide (x.2 = k.2 ∧ x ≠ k)).flatMap cands
  let square := ((squareCoords k).filter fun x => decide (x ≠ k)).flatMap
    fun c => if c ∈ keys then cands c else []
  decide (value ∉ row) || decide (value ∉ column) || decide (value ∉ square)

/-- One iteration of the hidden-single loop of `solve_board`: the candidates
of `k` are tried in order and the first qualifying one is committed (written
to the grid, candidate list collapsed to a singleton). -/
def hiddenStep (keys : List Key) (st : SState) (k : Key) : SState :=
  match (st.cands k).find? (checkOnlyPossibleLocation keys st.cands k) with
  | some v => { board := updB st.board k v, cands := updC st.cands k [v] }
  | none => st

/-- The hidden-single pass over every tracked key, in dictionary order. -/
def hiddenPass (keys : List Key) (st : SState) : SState :=
  keys.foldl (hiddenStep keys) st

/-- One round of the solve loop: elimination pass, then hidden-single pass. -/
def roundPass (keys : List Key) (st : SState) : SState :=
  hiddenPass keys (elimPass keys st)

/-- `"X" in board`: some cell of the 9×9 grid is still unknown. -/
def hasUnknownB (b : Board) : Bool :=
  (List.range 9).any fun i => (List.range 9).any fun j => b (i, j) == none

/-- `np.array_equal`: the two grids agree on all 81 cells. -/
def boardEqB (b b' : Board) : Bool :=
  (List.range 9).all fun i => (List.range 9).all fun j => b (i, j) == b' (i, j)

/-- Terminal shape of the solve loop: `complete` when the `while` condition
failed (no unknown cell), `stalled` when a round changed nothing, and the
artificial `running` when the fuel ran out (proved unreachable). -/
inductive Outcome where
  | running : Outcome
  | stalled : Outcome
  | complete : Outcome
deriving DecidableEq

/-- The `while` loop of `solve_board`, with explicit fuel and the running
iteration count. -/
def solveLoop (keys : List Key) : ℕ → SState → ℕ → SState × ℕ × Outcome
  | 0, st, its => (st, its, Outcome.running)
  | Nat.succ f, st, its =>
    if hasUnknownB st.board then
      let st' := roundPass keys st
      if boardEqB st.board st'.board then (st', its + 1, Outcome.stalled)
      else solveLoop keys f st' (its + 1)
    else (st, its, Outcome.complete)

/-- `create_unknowns_dict`: the row-major list of coordinates of unknown
cells of the input grid. -/
def keysOf (b : Board) : List Key :=
  (List.range 9).flatMap fun i =>
    (List.range 9).filterMap fun j => if b (i, j) = none then some (i, j) else none

/-- Every unknown cell starts with the full nine-candidate list. -/
def initCands : Key → List ℕ := fun _ => [1, 2, 3, 4, 5, 6, 7, 8, 9]

/-- The state at solve start. -/
def initState (b : Board) : SState := ⟨b, initCands⟩

/-- The solver state after `n` full rounds (elimination + hidden-single). -/
def iterState (b : Board) (n : ℕ) : SState :=
  (roundPass (keysOf b))^[n] (initState b)

/-- The row of cells `i` of the grid, all nine entries (unknowns included). -/
def rowCells (b : Board) (i : ℕ) : List Cell :=
  (List.range 9).map fun j => b (i, j)

/-- The column of cells `j` of the grid, all nine entries. -/
def colCells (b : Board) (j : ℕ) : List Cell :=
  (List.range 9).map fun i => b (i, j)

/-- The nine cells of box `(bi, bj)` (`bi, bj < 3`), flattened row-major. -/
def boxCells (b : Board) (bi bj : ℕ) : List Cell :=
  (List.range 3).flatMap fun di =>
    (List.range 3).map fun dj => b (bi * 3 + di, bj * 3 + dj)

/-- The sum of all 81 cells after the `astype(int)` conversion (an unknown
contributes 0, but the verifier only reaches this check when none remain). -/
def boardSum (b : Board) : ℕ :=
  ((List.range 9).flatMap fun i => (List.range 9).map fun j => (b (i, j)).getD 0).sum

/-- `check_solution`: the conjunction of the source's assertions, in order —
nine distinct entries in every row, column and box, no unknown marker,
every value within 1..9, total sum 405. -/
def checkSolutionB (b : Board) : Bool :=
  ((List.range 9).all fun i => (rowCells b i).dedup.length == 9) &&
  ((List.range 9).all fun j => (colCells b j).dedup.length == 9) &&
  ((List.range 3).all fun bi => (List.range 3).all fun bj =>
    (boxCells b bi bj).dedup.length == 9) &&
  ((List.range 9).all fun i => (List.range 9).all fun j => !(b (i, j) == none)) &&
  ((List.range 9).all fun i => (List.range 9).all fun j =>
    ((b (i, j)).getD 0 ≤ 9 && 1 ≤ (b (i, j)).getD 0)) &&
  (boardSum b == 405)

/-- The final report of `solve_board`: `SOLVED`/`NOT SOLVED` with the
iteration count, decided by whether `check_solution` raised. -/
inductive Report where
  | solved : ℕ → Report
  | notSolved : ℕ → Report
deriving DecidableEq

/-- Everything `solve_board` produces: the final grid, the iteration count,
the loop's terminal shape, and the printed report. -/
structure SolveResult where
  board : Board
  iters : ℕ
  outcome : Outcome
  report : Report

/-- `solve_board`: build the unknowns dict, run the loop, report. -/
def solveBoard (b : Board) : SolveResult :=
  let keys := keysOf b
  let r := solveLoop keys 82 (initState b) 0
  { board := r.1.board
    iters := r.2.1
    outcome := r.2.2
    report := if checkSolutionB r.1.board then Report.solved r.2.1
      else Report.notSolved r.2.1 }

/-- Concrete grids for tests: entry 0 denotes the unknown marker, a positive
entry a resolved symbol. -/
def mkBoard (rs : List (List ℕ)) : Board := fun p =>
  match (rs.getD p.1 []).getD p.2 0 with
  | 0 => none
  | Nat.succ m => some (Nat.succ m)

/-- A grid on which cell (0,8) is resolved to 9 by the first elimination
pass (its row holds 1..8) while the four cells (7,0), (7,1), (8,0), (8,1)
keep the two candidates {8, 9} forever. -/
def grid3 : Board := mkBoard
  [[1, 2, 3, 4, 5, 6, 7, 8, 0],
   [1, 1, 1, 1, 1, 1, 1, 1, 1],
   [1, 1, 1, 1, 1, 1, 1, 1, 1],
   [1, 1, 1, 1, 1, 1, 1, 1, 1],
   [1, 1, 1, 1, 1, 1, 1, 1, 1],
   [1, 1, 1, 1, 1, 1, 1, 1, 1],
   [1, 1, 1, 1, 1, 1, 1, 1, 1],
   [0, 0, 1, 2, 3, 4, 5, 6, 7],
   [0, 0, 1, 2, 3, 4, 5, 6, 7]]

/-- A contradictory grid: the single unknown cell (0,8) has its row holding
1..8 and its column holding 9, so its candidate list is pruned to empty. -/
def grid4 : Board := mkBoard
  [[1, 2, 3, 4, 5, 6, 7, 8, 0],
   [1, 1, 1, 1, 1, 1, 1, 1, 9],
   [1, 1, 1, 1, 1, 1, 1, 1, 1],
   [1, 1, 1, 1, 1, 1, 1, 1, 1],
   [1, 1, 1, 1, 1, 1, 1, 1, 1],
   [1, 1, 1, 1, 1, 1, 1, 1, 1],
   [1, 1, 1, 1, 1, 1, 1, 1, 1],
   [1, 1, 1, 1, 1, 1, 1, 1, 1],
   [1, 1, 1, 1, 1, 1, 1, 1, 1]]

/-- Excluded symbols per the specification of the elimination pass: `v` is a
resolved value currently present in the cell's row, column or box, the cell
itself never being compared against. -/
def specExcluded (b : Board) (k : Key) (v : ℕ) : Prop :=
  (∃ j ∈ Finset.range 9, (k.1, j) ≠ k ∧ b (k.1, j) = some v) ∨
  (∃ i ∈ Finset.range 9, (i, k.2) ≠ k ∧ b (i, k.2) = some v) ∨
  (∃ p ∈ Finset.range 9 ×ˢ Finset.range 9,
    p.1 / 3 = k.1 / 3 ∧ p.2 / 3 = k.2 / 3 ∧ p ≠ k ∧ b p = some v)

instance (b : Board) (k : Key) (v : ℕ) : Decidable (specExcluded b k v) := by
  unfold specExcluded; infer_instance

/-- Elimination at one cell, per the specification: the candidate set is
replaced by its previous value minus the excluded symbols, and a resulting
singleton is written to the grid at once. -/
def specElimStep (st : SState) (k : Key) : SState :=
  let poss := (st.cands k).filter fun v => decide (¬ specExcluded st.board k v)
  { board := if poss.length = 1 then updB st.board k (poss.headD 0) else st.board
    cands := updC st.cands k poss }

/-- Forcedness per the specification of the hidden-single detector: `v` is
absent from the candidate sets of all other tracked cells of at least one of
the three groups of `k` (row, column, box). -/
def specForced (keys : List Key) (cands : Key → List ℕ) (k : Key) (v : ℕ) : Prop :=
  (∀ x ∈ keys, x.1 = k.1 → x ≠ k → v ∉ cands x) ∨
  (∀ x ∈ keys, x.2 = k.2 → x ≠ k → v ∉ cands x) ∨
  (∀ x ∈ keys, x.1 / 3 = k.1 / 3 → x.2 / 3 = k.2 / 3 → x ≠ k → v ∉ cands x)

instance (keys : List Key) (cands : Key → List ℕ) (k : Key) (v : ℕ) :
    Decidable (specForced keys cands k v) := by
  unfold specForced; infer_instance

/-- The hidden-single step per the specification: the cell's remaining
candidates are tried in order; the first forced one is written to the grid,
the candidate set collapses to that singleton, and the scan stops. -/
def specHiddenStep (keys : List Key) (st : SState) (k : Key) : SState :=
  match (st.cands k).find? (fun v => decide (specForced keys st.cands k v)) with
  | some v => { board := updB st.board k v, cands := updC st.cands k [v] }
  | none => st

/-- The Verifier's contract per the specification: nine pairwise-distinct
entries in every row, column and box, no unknown marker, all symbols within
[1, 9], and total sum 405. -/
def specSolved (b : Board) : Prop :=
  (∀ i < 9, (rowCells b i).Nodup) ∧
  (∀ j < 9, (colCells b j).Nodup) ∧
  (∀ bi < 3, ∀ bj < 3, (boxCells b bi bj).Nodup) ∧
  (∀ i < 9, ∀ j < 9, b (i, j) ≠ none) ∧
  (∀ i < 9, ∀ j < 9, ∃ v, b (i, j) = some v ∧ 1 ≤ v ∧ v ≤ 9) ∧
  boardSum b = 405

/-- The per-cell representation invariant: whenever a tracked cell is
resolved on the grid, its candidate list is the matching singleton (the
round it was resolved) or empty (every later round). -/
def KeyOK (st : SState) (k : Key) : Prop :=
  ∀ v, st.board k = some v → st.cands k = [v] ∨ st.cands k = []

/-- The state invariant: every tracked cell satisfies `KeyOK`. -/
def Inv (keys : List Key) (st : SState) : Prop :=
  ∀ k ∈ keys, KeyOK st k

/-- Monotonic resolution between two states: every symbol resolved in the
first is still resolved, unchanged, in the second. -/
def StepLe (st st' : SState) : Prop :=
  ∀ p v, st.board p = some v → st'.board p = some v

/-- The number of unknown cells of the 9×9 grid. -/
def countX (b : Board) : ℕ :=
  ((Finset.range 9 ×ˢ Finset.range 9).filter fun p => b p = none).card

/-- Candidate shrinking between two states: every candidate list of the
second state is a sublist-up-to-membership of the first's, of no greater
length. -/
def ShrinkLe (st st' : SState) : Prop :=
  ∀ p : Key, st'.cands p ⊆ st.cands p ∧ (st'.cands p).length ≤ (st.cands p).length


/-! ### Basic lemmas about the primitive operations -/

theorem updB_self (b : Board) (k : Key) (v : ℕ) : updB b k v k = some v := by
  simp [updB]

theorem updB_ne {p k : Key} (b : Board) (v : ℕ) (h : p ≠ k) : updB b k v p = b p := by
  simp [updB, h]

theorem updC_self (c : Key → List ℕ) (k : Key) (l : List ℕ) : updC c k l k = l := by
  simp [updC]

theorem updC_ne {p k : Key} (c : Key → List ℕ) (l : List ℕ) (h : p ≠ k) :
    updC c k l p = c p := by
  simp [updC, h]

theorem mem_getRow {b : Board} {X v : ℕ} :
    v ∈ getRow b X ↔ ∃ j, j < 9 ∧ b (X, j) = some v := by
  simp [getRow, List.mem_filterMap, List.mem_range]

theorem mem_getColumn {b : Board} {Y v : ℕ} :
    v ∈ getColumn b Y ↔ ∃ i, i < 9 ∧ b (i, Y) = some v := by
  simp [getColumn, List.mem_filterMap, List.mem_range]

theorem mem_getSquare {b : Board} {X Y v : ℕ} :
    v ∈ getSquare b X Y ↔ ∃ i j, i / 3 = X / 3 ∧ j / 3 = Y / 3 ∧ b (i, j) = some v := by
  simp only [getSquare, List.mem_flatMap, List.mem_filterMap, List.mem_range]
  constructor
  · rintro ⟨di, hdi, dj, hdj, h⟩
    exact ⟨X / 3 * 3 + di, Y / 3 * 3 + dj, by omega, by omega, h⟩
  · rintro ⟨i, j, hi, hj, h⟩
    refine ⟨i - X / 3 * 3, by omega, j - Y / 3 * 3, by omega, ?_⟩
    have h1 : X / 3 * 3 + (i - X / 3 * 3) = i := by omega
    have h2 : Y / 3 * 3 + (j - Y / 3 * 3) = j := by omega
    rw [h1, h2]; exact h

theorem mem_squareCoords {k x : Key} :
    x ∈ squareCoords k ↔ x.1 / 3 = k.1 / 3 ∧ x.2 / 3 = k.2 / 3 := by
  simp only [squareCoords, List.mem_flatMap, List.mem_map, List.mem_range]
  constructor
  · rintro ⟨i, hi, j, hj, rfl⟩
    constructor <;> simp <;> omega
  · rintro ⟨h1, h2⟩
    refine ⟨x.1 - k.1 / 3 * 3, by omega, x.2 - k.2 / 3 * 3, by omega, ?_⟩
    have e1 : k.1 / 3 * 3 + (x.1 - k.1 / 3 * 3) = x.1 := by omega
    have e2 : k.2 / 3 * 3 + (x.2 - k.2 / 3 * 3) = x.2 := by omega
    rw [e1, e2]

theorem mem_keysOf {b : Board} {k : Key} :
    k ∈ keysOf b ↔ k.1 < 9 ∧ k.2 < 9 ∧ b k = none := by
  simp only [keysOf, List.mem_flatMap, List.mem_filterMap, List.mem_range]
  constructor
  · rintro ⟨i, hi, j, hj, h⟩
    by_cases hb : b (i, j) = none
    · simp only [hb, if_pos] at h
      cases h
      exact ⟨hi, hj, hb⟩
    · simp [hb] at h
  · rintro ⟨h1, h2, h3⟩
    exact ⟨k.1, h1, k.2, h2, by simp [h3]⟩

/-! ### Pointwise behaviour of the two step functions -/

theorem elimStep_cands (st : SState) (k p : Key) :
    (elimStep st k).cands p =
      if p = k then removeImpossibleValues k.1 k.2 (st.cands k) st.board
      else st.cands p := rfl

theorem elimStep_board_ne {st : SState} {k p : Key} (h : p ≠ k) :
    (elimStep st k).board p = st.board p := by
  by_cases hc : (removeImpossibleValues k.1 k.2 (st.cands k) st.board).length = 1 <;>
    simp [elimStep, hc, updB_ne _ _ h]

theorem hiddenStep_board_ne {keys : List Key} {st : SState} {k p : Key} (h : p ≠ k) :
    (hiddenStep keys st k).board p = st.board p := by
  unfold hiddenStep
  split <;> simp [updB_ne _ _ h]

theorem hiddenStep_cands_ne {keys : List Key} {st : SState} {k p : Key} (h : p ≠ k) :
    (hiddenStep keys st k).cands p = st.cands p := by
  unfold hiddenStep
  split <;> simp [updC_ne _ _ h]

/-! ### Resolved cells: the representation invariant and monotonicity -/

theorem resolved_mem_getRow {b : Board} {k : Key} {w : ℕ}
    (hk2 : k.2 < 9) (hb : b k = some w) : w ∈ getRow b k.1 :=
  mem_getRow.mpr ⟨k.2, hk2, hb⟩

theorem removeImpossibleValues_nil (X Y : ℕ) (b : Board) :
    removeImpossibleValues X Y [] b = [] := rfl

theorem removeImpossibleValues_of_mem {X Y w : ℕ} {b : Board}
    (hw : w ∈ getRow b X ++ getColumn b Y ++ getSquare b X Y) :
    removeImpossibleValues X Y [w] b = [] := by
  have hw' : w ∈ getRow b X ∨ w ∈ getColumn b Y ∨ w ∈ getSquare b X Y := by
    simpa [List.mem_append, or_assoc] using hw
  rcases hw' with h | h | h <;>
    simp [removeImpossibleValues, List.filter_singleton, h]

theorem removeImpossibleValues_singleton (X Y v : ℕ) (b : Board) :
    removeImpossibleValues X Y [v] b = [v] ∨
      removeImpossibleValues X Y [v] b = [] := by
  by_cases h : v ∉ getRow b X ++ getColumn b Y ++ getSquare b X Y
  · left
    have h3 : v ∉ getRow b X ∧ v ∉ getColumn b Y ∧ v ∉ getSquare b X Y := by
      simpa [List.mem_append, or_assoc, not_or] using h
    simp [removeImpossibleValues, List.filter_singleton, h3.1, h3.2.1, h3.2.2]
  · right
    exact removeImpossibleValues_of_mem (not_not.mp h)

theorem elimStep_resolved {st : SState} {k : Key} {w : ℕ}
    (hk2 : k.2 < 9) (hb : st.board k = some w)
    (hc : st.cands k = [w] ∨ st.cands k = []) :
    (elimStep st k).board = st.board ∧ (elimStep st k).cands k = [] := by
  have hw : w ∈ getRow st.board k.1 ++ getColumn st.board k.2 ++
      getSquare st.board k.1 k.2 :=
    List.mem_append_left _ (List.mem_append_left _ (resolved_mem_getRow hk2 hb))
  have hposs : removeImpossibleValues k.1 k.2 (st.cands k) st.board = [] := by
    rcases hc with hc | hc
    · rw [hc]; exact removeImpossibleValues_of_mem hw
    · rw [hc]; rfl
  constructor
  · simp [elimStep, hposs]
  · simp [elimStep, hposs, updC_self]

theorem elimStep_keyOK_self {st : SState} {k : Key} (hok : KeyOK st k) :
    KeyOK (elimStep st k) k := by
  intro v hb'
  have hcands : (elimStep st k).cands k =
      removeImpossibleValues k.1 k.2 (st.cands k) st.board := by
    simp [elimStep, updC_self]
  by_cases hl : (removeImpossibleValues k.1 k.2 (st.cands k) st.board).length = 1
  · obtain ⟨u, hu⟩ := List.length_eq_one.mp hl
    have hb2 : (elimStep st k).board k = some u := by
      simp [elimStep, hl, hu, updB_self]
    rw [hb'] at hb2
    cases hb2
    left
    rw [hcands, hu]
  · have hb2 : (elimStep st k).board k = st.board k := by simp [elimStep, hl]
    rw [hb2] at hb'
    rcases hok v hb' with hc | hc
    · rw [hc] at hl hcands
      rcases removeImpossibleValues_singleton k.1 k.2 v st.board with h | h
      · exact absurd (by rw [h]; rfl) hl
      · right; rw [hcands, h]
    · rw [hc] at hcands
      right
      rw [hcands]
      rfl

theorem elimStep_keyOK_other {st : SState} {k p : Key} (h : p ≠ k)
    (hok : KeyOK st p) : KeyOK (elimStep st k) p := by
  intro v hb'
  rw [elimStep_board_ne h] at hb'
  rw [elimStep_cands, if_neg h]
  exact hok v hb'

theorem elimStep_le {st : SState} {k : Key} (hok : KeyOK st k) :
    StepLe st (elimStep st k) := by
  intro p v hp
  by_cases hpk : p = k
  · subst hpk
    rcases hok v hp with hc | hc
    · rcases removeImpossibleValues_singleton p.1 p.2 v st.board with h | h
      · simp [elimStep, hc, h, updB_self]
      · have hl : ¬ (removeImpossibleValues p.1 p.2 (st.cands p) st.board).length = 1 := by
          rw [hc, h]; simp
        simpa [elimStep, hl] using hp
    · have hl : ¬ (removeImpossibleValues p.1 p.2 (st.cands p) st.board).length = 1 := by
        rw [hc]; simp [removeImpossibleValues_nil]
      simpa [elimStep, hl] using hp
  · rw [elimStep_board_ne hpk]; exact hp

theorem hiddenStep_of_find_some {keys : List Key} {st : SState} {k : Key} {v : ℕ}
    (hf : (st.cands k).find? (checkOnlyPossibleLocation keys st.cands k) = some v) :
    hiddenStep keys st k = ⟨updB st.board k v, updC st.cands k [v]⟩ := by
  unfold hiddenStep
  rw [hf]

theorem hiddenStep_of_find_none {keys : List Key} {st : SState} {k : Key}
    (hf : (st.cands k).find? (checkOnlyPossibleLocation keys st.cands k) = none) :
    hiddenStep keys st k = st := by
  unfold hiddenStep
  rw [hf]

theorem hiddenStep_keyOK_self {keys : List Key} {st : SState} {k : Key}
    (hok : KeyOK st k) : KeyOK (hiddenStep keys st k) k := by
  rcases hf : (st.cands k).find? (checkOnlyPossibleLocation keys st.cands k) with
    _ | v
  · rw [hiddenStep_of_find_none hf]
    exact hok
  · rw [hiddenStep_of_find_some hf]
    intro w hw
    rw [show (SState.mk (updB st.board k v) (updC st.cands k [v])).board = updB st.board k v from rfl,
      updB_self] at hw
    cases hw
    left
    exact updC_self _ _ _

theorem hiddenStep_keyOK_other {keys : List Key} {st : SState} {k p : Key}
    (h : p ≠ k) (hok : KeyOK st p) : KeyOK (hiddenStep keys st k) p := by
  intro v hb'
  rw [hiddenStep_board_ne h] at hb'
  rw [hiddenStep_cands_ne h]
  exact hok v hb'

theorem hiddenStep_le {keys : List Key} {st : SState} {k : Key}
    (hok : KeyOK st k) : StepLe st (hiddenStep keys st k) := by
  intro p v hp
  by_cases hpk : p = k
  · subst hpk
    rcases hf : (st.cands p).find? (checkOnlyPossibleLocation keys st.cands p) with
      _ | u
    · rw [hiddenStep_of_find_none hf]
      exact hp
    · rcases hok v hp with hc | hc
      · rw [hc] at hf
        have hu := List.mem_of_find?_eq_some hf
        simp only [List.mem_singleton] at hu
        subst hu
        rw [hiddenStep_of_find_some (hc ▸ hf)]
        exact updB_self _ _ _
      · rw [hc] at hf
        exact absurd hf (by simp)
  · rw [hiddenStep_board_ne hpk]; exact hp

theorem stepLe_refl (st : SState) : StepLe st st := fun _ _ h => h

theorem stepLe_trans {s t u : SState} (h1 : StepLe s t) (h2 : StepLe t u) :
    StepLe s u := fun p v h => h2 p v (h1 p v h)

theorem elimFold_inv_le (keys : List Key) :
    ∀ (l : List Key) (st : SState), (∀ k ∈ l, k ∈ keys) → Inv keys st →
      Inv keys (l.foldl elimStep st) ∧ StepLe st (l.foldl elimStep st) := by
  intro l
  induction l with
  | nil => exact fun st _ hinv => ⟨hinv, stepLe_refl st⟩
  | cons k l ih =>
    intro st hsub hinv
    simp only [List.foldl_cons]
    have hk : k ∈ keys := hsub k (List.mem_cons_self k l)
    have hinv1 : Inv keys (elimStep st k) := by
      intro k' hk'
      by_cases hkk : k' = k
      · subst hkk; exact elimStep_keyOK_self (hinv k' hk')
      · exact elimStep_keyOK_other hkk (hinv k' hk')
    have hrest := ih (elimStep st k) (fun x hx => hsub x (List.mem_cons_of_mem _ hx))
      hinv1
    exact ⟨hrest.1, stepLe_trans (elimStep_le (hinv k hk)) hrest.2⟩

theorem hiddenFold_inv_le (keys : List Key) :
    ∀ (l : List Key) (st : SState), (∀ k ∈ l, k ∈ keys) → Inv keys st →
      Inv keys (l.foldl (hiddenStep keys) st) ∧
        StepLe st (l.foldl (hiddenStep keys) st) := by
  intro l
  induction l with
  | nil => exact fun st _ hinv => ⟨hinv, stepLe_refl st⟩
  | cons k l ih =>
    intro st hsub hinv
    simp only [List.foldl_cons]
    have hk : k ∈ keys := hsub k (List.mem_cons_self k l)
    have hinv1 : Inv keys (hiddenStep keys st k) := by
      intro k' hk'
      by_cases hkk : k' = k
      · subst hkk; exact hiddenStep_keyOK_self (hinv k' hk')
      · exact hiddenStep_keyOK_other hkk (hinv k' hk')
    have hrest := ih (hiddenStep keys st k)
      (fun x hx => hsub x (List.mem_cons_of_mem _ hx)) hinv1
    exact ⟨hrest.1, stepLe_trans (hiddenStep_le (hinv k hk)) hrest.2⟩

theorem roundPass_inv_le {keys : List Key} {st : SState} (hinv : Inv keys st) :
    Inv keys (roundPass keys st) ∧ StepLe st (roundPass keys st) := by
  have h1 := elimFold_inv_le keys keys st (fun _ h => h) hinv
  have h2 := hiddenFold_inv_le keys keys (elimPass keys st) (fun _ h => h) h1.1
  exact ⟨h2.1, stepLe_trans h1.2 h2.2⟩

theorem inv_initState (b : Board) : Inv (keysOf b) (initState b) := by
  intro k hk v hv
  have hnone := (mem_keysOf.mp hk).2.2
  rw [show (initState b).board = b from rfl, hnone] at hv
  cases hv

theorem iterState_zero (b : Board) : iterState b 0 = initState b := rfl

theorem iterState_succ (b : Board) (n : ℕ) :
    iterState b (n + 1) = roundPass (keysOf b) (iterState b n) :=
  Function.iterate_succ_apply' _ _ _

theorem iterState_inv (b : Board) (n : ℕ) : Inv (keysOf b) (iterState b n) := by
  induction n with
  | zero => exact inv_initState b
  | succ n ih => rw [iterState_succ]; exact (roundPass_inv_le ih).1

theorem iterState_le (b : Board) (n m : ℕ) :
    StepLe (iterState b n) (iterState b (n + m)) := by
  induction m with
  | zero => exact stepLe_refl _
  | succ m ih =>
    rw [show n + (m + 1) = (n + m) + 1 from rfl, iterState_succ]
    exact stepLe_trans ih (roundPass_inv_le (iterState_inv b (n + m))).2

/-! ### Termination of the solve loop -/

theorem hasUnknownB_iff {b : Board} :
    hasUnknownB b = true ↔ ∃ p : Key, p.1 < 9 ∧ p.2 < 9 ∧ b p = none := by
  simp only [hasUnknownB, List.any_eq_true, List.mem_range, beq_iff_eq]
  constructor
  · rintro ⟨i, hi, j, hj, h⟩
    exact ⟨(i, j), hi, hj, h⟩
  · rintro ⟨p, h1, h2, h3⟩
    exact ⟨p.1, h1, p.2, h2, by simpa using h3⟩

theorem mem_countX_filter {b : Board} {p : Key} :
    p ∈ (Finset.range 9 ×ˢ Finset.range 9).filter (fun q => b q = none) ↔
      p.1 < 9 ∧ p.2 < 9 ∧ b p = none := by
  simp [Finset.mem_filter, Finset.mem_product, Finset.mem_range, and_assoc]

theorem hasUnknownB_false_of_countX {b : Board} (h : countX b = 0) :
    hasUnknownB b = false := by
  rcases hb : hasUnknownB b with _ | _
  · rfl
  · exfalso
    obtain ⟨p, h1, h2, h3⟩ := hasUnknownB_iff.mp hb
    have hp : p ∈ (Finset.range 9 ×ˢ Finset.range 9).filter (fun q => b q = none) :=
      mem_countX_filter.mpr ⟨h1, h2, h3⟩
    rw [countX, Finset.card_eq_zero] at h
    rw [h] at hp
    exact absurd hp (Finset.not_mem_empty p)

theorem boardEqB_false {b b' : Board} (h : boardEqB b b' = false) :
    ∃ p : Key, p.1 < 9 ∧ p.2 < 9 ∧ b p ≠ b' p := by
  by_contra hcon
  push_neg at hcon
  have ht : boardEqB b b' = true := by
    simp only [boardEqB, List.all_eq_true, List.mem_range, beq_iff_eq]
    intro i hi j hj
    exact hcon (i, j) hi hj
  rw [ht] at h
  cases h

theorem stepLe_none {st st' : SState} (h : StepLe st st') {p : Key}
    (h2 : st'.board p = none) : st.board p = none := by
  rcases hb : st.board p with _ | v
  · rfl
  · rw [h p v hb] at h2
    cases h2

theorem round_countX_lt {keys : List Key} {st : SState} (hinv : Inv keys st)
    (hne : boardEqB st.board (roundPass keys st).board = false) :
    countX (roundPass keys st).board < countX st.board := by
  obtain ⟨p, h1, h2, h3⟩ := boardEqB_false hne
  have hle := (roundPass_inv_le hinv).2
  have hpnone : st.board p = none := by
    rcases hb : st.board p with _ | v
    · rfl
    · exact absurd (by rw [hb, hle p v hb]) h3
  have hp' : (roundPass keys st).board p ≠ none := by
    intro hno
    exact h3 (by rw [hpnone, hno])
  have hsub : (Finset.range 9 ×ˢ Finset.range 9).filter
      (fun q => (roundPass keys st).board q = none) ⊆
      (Finset.range 9 ×ˢ Finset.range 9).filter (fun q => st.board q = none) := by
    intro q hq
    obtain ⟨hq1, hq2, hq3⟩ := mem_countX_filter.mp hq
    exact mem_countX_filter.mpr ⟨hq1, hq2, stepLe_none hle hq3⟩
  refine Finset.card_lt_card ((Finset.ssubset_iff_of_subset hsub).mpr ?_)
  refine ⟨p, mem_countX_filter.mpr ⟨h1, h2, hpnone⟩, ?_⟩
  intro hmem
  exact hp' (mem_countX_filter.mp hmem).2.2

theorem countX_le (b : Board) : countX b ≤ 81 := by
  calc countX b ≤ (Finset.range 9 ×ˢ Finset.range 9).card :=
        Finset.card_filter_le _ _
    _ = 81 := by simp

theorem solveLoop_done (keys : List Key) :
    ∀ (c f its : ℕ) (st : SState), Inv keys st → countX st.board ≤ c → c < f →
      (solveLoop keys f st its).2.2 ≠ Outcome.running ∧
        (solveLoop keys f st its).2.1 ≤ its + c := by
  intro c
  induction c with
  | zero =>
    intro f its st _ hcx hf
    obtain ⟨f', rfl⟩ : ∃ f', f = f' + 1 := ⟨f - 1, by omega⟩
    have hxu : hasUnknownB st.board = false := hasUnknownB_false_of_countX (by omega)
    simp only [solveLoop, hxu, Bool.false_eq_true, if_false]
    exact ⟨fun h => Outcome.noConfusion h, by omega⟩
  | succ c ih =>
    intro f its st hinv hcx hf
    obtain ⟨f', rfl⟩ : ∃ f', f = f' + 1 := ⟨f - 1, by omega⟩
    rcases hxu : hasUnknownB st.board with _ | _
    · simp only [solveLoop, hxu, Bool.false_eq_true, if_false]
      exact ⟨fun h => Outcome.noConfusion h, by omega⟩
    · rcases hq : boardEqB st.board (roundPass keys st).board with _ | _
      · have hlt := round_countX_lt hinv hq
        have hrec := ih f' (its + 1) (roundPass keys st) (roundPass_inv_le hinv).1
          (by omega) (by omega)
        simp only [solveLoop, hxu, if_true, hq, Bool.false_eq_true, if_false]
        exact ⟨hrec.1, by omega⟩
      · simp only [solveLoop, hxu, if_true, hq]
        exact ⟨fun h => Outcome.noConfusion h, by omega⟩

theorem solveLoop_complete (keys : List Key) :
    ∀ (f : ℕ) (st : SState) (its : ℕ),
      (solveLoop keys f st its).2.2 = Outcome.complete →
        hasUnknownB (solveLoop keys f st its).1.board = false := by
  intro f
  induction f with
  | zero => intro st its h; exact absurd h (by simp [solveLoop])
  | succ f ih =>
    intro st its h
    rcases hxu : hasUnknownB st.board with _ | _
    · simp only [solveLoop, hxu, Bool.false_eq_true, if_false]
    · rcases hq : boardEqB st.board (roundPass keys st).board with _ | _
      · simp only [solveLoop, hxu, if_true, hq, Bool.false_eq_true, if_false] at h ⊢
        exact ih _ _ h
      · simp only [solveLoop, hxu, if_true, hq] at h
        cases h

theorem solveLoop_trace (keys : List Key) :
    ∀ (f : ℕ) (st : SState) (its : ℕ),
      ∃ m, (solveLoop keys f st its).1 = (roundPass keys)^[m] st := by
  intro f
  induction f with
  | zero => intro st its; exact ⟨0, rfl⟩
  | succ f ih =>
    intro st its
    rcases hxu : hasUnknownB st.board with _ | _
    · exact ⟨0, by simp [solveLoop, hxu]⟩
    · rcases hq : boardEqB st.board (roundPass keys st).board with _ | _
      · obtain ⟨m, hm⟩ := ih (roundPass keys st) (its + 1)
        refine ⟨m + 1, ?_⟩
        simp only [solveLoop, hxu, if_true, hq, Bool.false_eq_true, if_false]
        rw [Function.iterate_succ_apply]
        exact hm
      · refine ⟨1, ?_⟩
        simp only [solveLoop, hxu, if_true, hq, Function.iterate_one]

/-! ### An empty candidate list persists and pins its cell -/

theorem elimStep_pres_empty {st : SState} {k : Key} (k' : Key)
    (hb : st.board k = none) (hc : st.cands k = []) :
    (elimStep st k').board k = none ∧ (elimStep st k').cands k = [] := by
  by_cases hkk : k = k'
  · subst hkk
    have hposs : removeImpossibleValues k.1 k.2 (st.cands k) st.board = [] := by
      rw [hc]; rfl
    constructor
    · simp [elimStep, hposs, hb]
    · simp [elimStep, hposs, updC_self]
  · exact ⟨by rw [elimStep_board_ne hkk]; exact hb,
      by rw [elimStep_cands, if_neg hkk]; exact hc⟩

theorem hiddenStep_pres_empty {keys : List Key} {st : SState} {k : Key} (k' : Key)
    (hb : st.board k = none) (hc : st.cands k = []) :
    (hiddenStep keys st k').board k = none ∧ (hiddenStep keys st k').cands k = [] := by
  by_cases hkk : k = k'
  · subst hkk
    rw [hiddenStep_of_find_none (by rw [hc]; rfl)]
    exact ⟨hb, hc⟩
  · exact ⟨by rw [hiddenStep_board_ne hkk]; exact hb,
      by rw [hiddenStep_cands_ne hkk]; exact hc⟩

theorem elimFold_pres_empty {k : Key} :
    ∀ (l : List Key) (st : SState), st.board k = none → st.cands k = [] →
      (l.foldl elimStep st).board k = none ∧ (l.foldl elimStep st).cands k = [] := by
  intro l
  induction l with
  | nil => exact fun st hb hc => ⟨hb, hc⟩
  | cons k' l ih =>
    intro st hb hc
    simp only [List.foldl_cons]
    obtain ⟨hb1, hc1⟩ := elimStep_pres_empty k' hb hc
    exact ih (elimStep st k') hb1 hc1

theorem hiddenFold_pres_empty {keys : List Key} {k : Key} :
    ∀ (l : List Key) (st : SState), st.board k = none → st.cands k = [] →
      (l.foldl (hiddenStep keys) st).board k = none ∧
        (l.foldl (hiddenStep keys) st).cands k = [] := by
  intro l
  induction l with
  | nil => exact fun st hb hc => ⟨hb, hc⟩
  | cons k' l ih =>
    intro st hb hc
    simp only [List.foldl_cons]
    obtain ⟨hb1, hc1⟩ := hiddenStep_pres_empty k' hb hc
    exact ih (hiddenStep keys st k') hb1 hc1

theorem roundPass_pres_empty {keys : List Key} {st : SState} {k : Key}
    (hb : st.board k = none) (hc : st.cands k = []) :
    (roundPass keys st).board k = none ∧ (roundPass keys st).cands k = [] := by
  obtain ⟨hb1, hc1⟩ := elimFold_pres_empty keys st hb hc
  exact hiddenFold_pres_empty keys (elimPass keys st) hb1 hc1

theorem iterState_pres_empty {b : Board} {k : Key} {n : ℕ}
    (hb : (iterState b n).board k = none) (hc : (iterState b n).cands k = []) :
    ∀ m, (iterState b (n + m)).board k = none ∧ (iterState b (n + m)).cands k = [] := by
  intro m
  induction m with
  | zero => exact ⟨hb, hc⟩
  | succ m ih =>
    rw [show n + (m + 1) = (n + m) + 1 from rfl, iterState_succ]
    exact roundPass_pres_empty ih.1 ih.2

theorem iterState_none_mono {b : Board} {k : Key} {n m : ℕ} (h : n ≤ m)
    (hm : (iterState b m).board k = none) : (iterState b n).board k = none := by
  rcases hb : (iterState b n).board k with _ | v
  · rfl
  · have := iterState_le b n (m - n) k v hb
    rw [show n + (m - n) = m by omega] at this
    rw [this] at hm
    cases hm

/-! ### The code's excluded set and forcedness agree with the spec's -/

theorem mem_impossible_iff {b : Board} {k : Key} {v : ℕ}
    (hk1 : k.1 < 9) (hk2 : k.2 < 9) (hb : b k = none) :
    v ∈ getRow b k.1 ++ getColumn b k.2 ++ getSquare b k.1 k.2 ↔
      specExcluded b k v := by
  constructor
  · intro h
    rcases List.mem_append.mp h with h2 | h2
    · rcases List.mem_append.mp h2 with h3 | h3
      · obtain ⟨j, hj, hbj⟩ := mem_getRow.mp h3
        refine Or.inl ⟨j, Finset.mem_range.mpr hj, ?_, hbj⟩
        intro he
        rw [he, hb] at hbj
        cases hbj
      · obtain ⟨i, hi, hbi⟩ := mem_getColumn.mp h3
        refine Or.inr (Or.inl ⟨i, Finset.mem_range.mpr hi, ?_, hbi⟩)
        intro he
        rw [he, hb] at hbi
        cases hbi
    · obtain ⟨i, j, hi3, hj3, hbij⟩ := mem_getSquare.mp h2
      refine Or.inr (Or.inr ⟨(i, j), Finset.mem_product.mpr
        ⟨Finset.mem_range.mpr (by omega), Finset.mem_range.mpr (by omega)⟩,
        hi3, hj3, ?_, hbij⟩)
      intro he
      rw [he, hb] at hbij
      cases hbij
  · intro h
    rcases h with ⟨j, hj, _, hbj⟩ | ⟨i, hi, _, hbi⟩ | ⟨p, _, h13, h23, _, hbp⟩
    · exact List.mem_append_left _ (List.mem_append_left _
        (mem_getRow.mpr ⟨j, Finset.mem_range.mp hj, hbj⟩))
    · exact List.mem_append_left _ (List.mem_append_right _
        (mem_getColumn.mpr ⟨i, Finset.mem_range.mp hi, hbi⟩))
    · exact List.mem_append_right _ (mem_getSquare.mpr ⟨p.1, p.2, h13, h23, hbp⟩)

theorem removeImpossibleValues_eq_spec {st : SState} {k : Key}
    (hk1 : k.1 < 9) (hk2 : k.2 < 9) (hb : st.board k = none) :
    removeImpossibleValues k.1 k.2 (st.cands k) st.board =
      (st.cands k).filter fun v => decide (¬ specExcluded st.board k v) := by
  rw [removeImpossibleValues]
  apply List.filter_congr
  intro v _
  rw [decide_eq_decide]
  exact not_congr (mem_impossible_iff hk1 hk2 hb)

theorem not_mem_rowUnion_iff {keys : List Key} {cands : Key → List ℕ}
    {k : Key} {v : ℕ} :
    v ∉ (keys.filter fun x => decide (x.1 = k.1 ∧ x ≠ k)).flatMap cands ↔
      ∀ x ∈ keys, x.1 = k.1 → x ≠ k → v ∉ cands x := by
  constructor
  · intro h x hx h1 h2 hv
    exact h (List.mem_flatMap.mpr ⟨x, List.mem_filter.mpr ⟨hx, by simp [h1, h2]⟩, hv⟩)
  · intro h hv
    obtain ⟨x, hx, hvx⟩ := List.mem_flatMap.mp hv
    obtain ⟨hxk, hcond⟩ := List.mem_filter.mp hx
    simp only [decide_eq_true_eq] at hcond
    exact h x hxk hcond.1 hcond.2 hvx

theorem not_mem_colUnion_iff {keys : List Key} {cands : Key → List ℕ}
    {k : Key} {v : ℕ} :
    v ∉ (keys.filter fun x => decide (x.2 = k.2 ∧ x ≠ k)).flatMap cands ↔
      ∀ x ∈ keys, x.2 = k.2 → x ≠ k → v ∉ cands x := by
  constructor
  · intro h x hx h1 h2 hv
    exact h (List.mem_flatMap.mpr ⟨x, List.mem_filter.mpr ⟨hx, by simp [h1, h2]⟩, hv⟩)
  · intro h hv
    obtain ⟨x, hx, hvx⟩ := List.mem_flatMap.mp hv
    obtain ⟨hxk, hcond⟩ := List.mem_filter.mp hx
    simp only [decide_eq_true_eq] at hcond
    exact h x hxk hcond.1 hcond.2 hvx

theorem not_mem_sqUnion_iff {keys : List Key} {cands : Key → List ℕ}
    {k : Key} {v : ℕ} :
    v ∉ (((squareCoords k).filter fun x => decide (x ≠ k)).flatMap
        fun c => if c ∈ keys then cands c else []) ↔
      ∀ x ∈ keys, x.1 / 3 = k.1 / 3 → x.2 / 3 = k.2 / 3 → x ≠ k → v ∉ cands x := by
  constructor
  · intro h x hx h1 h2 h3 hv
    refine h (List.mem_flatMap.mpr ⟨x, List.mem_filter.mpr
      ⟨mem_squareCoords.mpr ⟨h1, h2⟩, by simp [h3]⟩, ?_⟩)
    rw [if_pos hx]
    exact hv
  · intro h hv
    obtain ⟨x, hx, hvx⟩ := List.mem_flatMap.mp hv
    obtain ⟨hxs, hne⟩ := List.mem_filter.mp hx
    simp only [decide_eq_true_eq] at hne
    by_cases hxk : x ∈ keys
    · rw [if_pos hxk] at hvx
      obtain ⟨e1, e2⟩ := mem_squareCoords.mp hxs
      exact h x hxk e1 e2 hne hvx
    · rw [if_neg hxk] at hvx
      exact absurd hvx (List.not_mem_nil v)

theorem checkOnly_eq_spec (keys : List Key) (cands : Key → List ℕ)
    (k : Key) (v : ℕ) :
    checkOnlyPossibleLocation keys cands k v =
      decide (specForced keys cands k v) := by
  simp only [checkOnlyPossibleLocation]
  rw [← Bool.decide_or, ← Bool.decide_or, decide_eq_decide, specForced, or_assoc]
  exact or_congr not_mem_rowUnion_iff
    (or_congr not_mem_colUnion_iff not_mem_sqUnion_iff)

theorem find?_congr {α : Type} {p q : α → Bool} (h : ∀ a, p a = q a) :
    ∀ l : List α, l.find? p = l.find? q := by
  intro l
  induction l with
  | nil => rfl
  | cons a l ih => rw [List.find?_cons, List.find?_cons, h a, ih]

/-! ### The verifier agrees with its specification -/

theorem dedup_length_iff {α : Type} [DecidableEq α] {l : List α} {n : ℕ}
    (h : l.length = n) : l.dedup.length = n ↔ l.Nodup := by
  constructor
  · intro hd
    have hs : l.dedup.Sublist l := List.dedup_sublist l
    have he : l.dedup = l := hs.eq_of_length (by rw [hd, h])
    rw [← he]
    exact l.nodup_dedup
  · intro hn
    rw [List.dedup_eq_self.mpr hn, h]

theorem length_rowCells (b : Board) (i : ℕ) : (rowCells b i).length = 9 := by
  simp [rowCells]

theorem length_colCells (b : Board) (j : ℕ) : (colCells b j).length = 9 := by
  simp [colCells]

theorem length_boxCells (b : Board) (bi bj : ℕ) : (boxCells b bi bj).length = 9 := rfl

theorem checkSolution_iff_spec (b : Board) : checkSolutionB b = true ↔ specSolved b := by
  have hA : ((List.range 9).all fun i => (rowCells b i).dedup.length == 9) = true ↔
      ∀ i < 9, (rowCells b i).Nodup := by
    simp only [List.all_eq_true, List.mem_range, beq_iff_eq]
    refine forall_congr' fun i => imp_congr_right fun _ => ?_
    exact dedup_length_iff (length_rowCells b i)
  have hB : ((List.range 9).all fun j => (colCells b j).dedup.length == 9) = true ↔
      ∀ j < 9, (colCells b j).Nodup := by
    simp only [List.all_eq_true, List.mem_range, beq_iff_eq]
    refine forall_congr' fun j => imp_congr_right fun _ => ?_
    exact dedup_length_iff (length_colCells b j)
  have hC : ((List.range 3).all fun bi => (List.range 3).all fun bj =>
      (boxCells b bi bj).dedup.length == 9) = true ↔
      ∀ bi < 3, ∀ bj < 3, (boxCells b bi bj).Nodup := by
    simp only [List.all_eq_true, List.mem_range, beq_iff_eq]
    refine forall_congr' fun bi => imp_congr_right fun _ => ?_
    refine forall_congr' fun bj => imp_congr_right fun _ => ?_
    exact dedup_length_iff (length_boxCells b bi bj)
  have hD : ((List.range 9).all fun i => (List.range 9).all fun j =>
      !(b (i, j) == none)) = true ↔ ∀ i < 9, ∀ j < 9, b (i, j) ≠ none := by
    simp only [List.all_eq_true, List.mem_range, Bool.not_eq_true',
      beq_eq_false_iff_ne, ne_eq]
  have hE : ((List.range 9).all fun i => (List.range 9).all fun j =>
      ((b (i, j)).getD 0 ≤ 9 && 1 ≤ (b (i, j)).getD 0)) = true ↔
      ∀ i < 9, ∀ j < 9, (b (i, j)).getD 0 ≤ 9 ∧ 1 ≤ (b (i, j)).getD 0 := by
    simp only [List.all_eq_true, List.mem_range, Bool.and_eq_true, decide_eq_true_eq]
  rw [checkSolutionB, specSolved]
  simp only [Bool.and_eq_true, beq_iff_eq]
  constructor
  · rintro ⟨⟨⟨⟨⟨a1, a2⟩, a3⟩, a4⟩, a5⟩, a6⟩
    refine ⟨hA.mp a1, hB.mp a2, hC.mp a3, hD.mp a4, ?_, a6⟩
    intro i hi j hj
    obtain ⟨v, hv⟩ := Option.ne_none_iff_exists'.mp (hD.mp a4 i hi j hj)
    have hb := hE.mp a5 i hi j hj
    rw [hv] at hb
    simp only [Option.getD_some] at hb
    exact ⟨v, hv, hb.2, hb.1⟩
  · rintro ⟨a1, a2, a3, a4, a5, a6⟩
    refine ⟨⟨⟨⟨⟨hA.mpr a1, hB.mpr a2⟩, hC.mpr a3⟩, hD.mpr a4⟩, ?_⟩, a6⟩
    refine hE.mpr fun i hi j hj => ?_
    obtain ⟨v, hv, h1, h9⟩ := a5 i hi j hj
    rw [hv]
    simp only [Option.getD_some]
    exact ⟨h9, h1⟩

theorem checkSolutionB_false_of_none {b : Board} {p : Key}
    (h1 : p.1 < 9) (h2 : p.2 < 9) (hb : b p = none) : checkSolutionB b = false := by
  rcases h : checkSolutionB b with _ | _
  · rfl
  · exfalso
    exact (checkSolution_iff_spec b).mp h |>.2.2.2.1 p.1 h1 p.2 h2 hb

/-! ### Unfolding the result record of `solve_board` -/

theorem solveBoard_board (b : Board) :
    (solveBoard b).board = (solveLoop (keysOf b) 82 (initState b) 0).1.board := rfl

theorem solveBoard_iters (b : Board) :
    (solveBoard b).iters = (solveLoop (keysOf b) 82 (initState b) 0).2.1 := rfl

theorem solveBoard_outcome (b : Board) :
    (solveBoard b).outcome = (solveLoop (keysOf b) 82 (initState b) 0).2.2 := rfl

theorem solveBoard_report (b : Board) :
    (solveBoard b).report =
      if checkSolutionB (solveBoard b).board then Report.solved (solveBoard b).iters
      else Report.notSolved (solveBoard b).iters := by
  simp only [solveBoard]

/-! ### Candidate lists only shrink -/

theorem shrinkLe_refl (st : SState) : ShrinkLe st st :=
  fun _ => ⟨fun _ h => h, le_refl _⟩

theorem shrinkLe_trans {s t u : SState} (h1 : ShrinkLe s t) (h2 : ShrinkLe t u) :
    ShrinkLe s u :=
  fun p => ⟨fun _ hx => (h1 p).1 ((h2 p).1 hx), le_trans (h2 p).2 (h1 p).2⟩

theorem elimStep_shrink (st : SState) (k : Key) : ShrinkLe st (elimStep st k) := by
  intro p
  by_cases hpk : p = k
  · subst hpk
    rw [elimStep_cands, if_pos rfl, removeImpossibleValues]
    exact ⟨(List.filter_sublist _).subset, List.length_filter_le _ _⟩
  · rw [elimStep_cands, if_neg hpk]
    exact ⟨fun _ h => h, le_refl _⟩

theorem hiddenStep_shrink (keys : List Key) (st : SState) (k : Key) :
    ShrinkLe st (hiddenStep keys st k) := by
  intro p
  rcases hf : (st.cands k).find? (checkOnlyPossibleLocation keys st.cands k) with
    _ | v
  · rw [hiddenStep_of_find_none hf]
    exact ⟨fun _ h => h, le_refl _⟩
  · rw [hiddenStep_of_find_some hf]
    by_cases hpk : p = k
    · subst hpk
      have hv : v ∈ st.cands p := List.mem_of_find?_eq_some hf
      constructor
      · intro x hx
        rw [show (SState.mk (updB st.board p v) (updC st.cands p [v])).cands = updC st.cands p [v] from rfl,
          updC_self] at hx
        rw [List.mem_singleton] at hx
        subst hx
        exact hv
      · rw [show (SState.mk (updB st.board p v) (updC st.cands p [v])).cands = updC st.cands p [v] from rfl,
          updC_self]
        exact List.length_pos.mpr (List.ne_nil_of_mem hv)
    · rw [show (SState.mk (updB st.board k v) (updC st.cands k [v])).cands = updC st.cands k [v] from rfl,
        updC_ne _ _ hpk]
      exact ⟨fun _ h => h, le_refl _⟩

theorem elimFold_shrink : ∀ (l : List Key) (st : SState),
    ShrinkLe st (l.foldl elimStep st) := by
  intro l
  induction l with
  | nil => exact fun st => shrinkLe_refl st
  | cons k l ih =>
    intro st
    simp only [List.foldl_cons]
    exact shrinkLe_trans (elimStep_shrink st k) (ih (elimStep st k))

theorem hiddenFold_shrink (keys : List Key) : ∀ (l : List Key) (st : SState),
    ShrinkLe st (l.foldl (hiddenStep keys) st) := by
  intro l
  induction l with
  | nil => exact fun st => shrinkLe_refl st
  | cons k l ih =>
    intro st
    simp only [List.foldl_cons]
    exact shrinkLe_trans (hiddenStep_shrink keys st k) (ih (hiddenStep keys st k))

theorem roundPass_shrink (keys : List Key) (st : SState) :
    ShrinkLe st (roundPass keys st) :=
  shrinkLe_trans (elimFold_shrink keys st) (hiddenFold_shrink keys keys (elimPass keys st))

/-! ### The claims -/

/-- C1: in each elimination pass, every still-unknown cell has its candidate
list replaced by its previous list minus the union of the resolved symbols
currently present in its row, column and box (the cell is never compared
against itself), and a resulting singleton is written into the grid by the
same step; moreover the pass processes cells in sequence, so every later
cell starts from the state already updated by the earlier ones. -/
theorem c1_elimination_pass (st : SState) (k : Key) (ks : List Key)
    (hk1 : k.1 < 9) (hk2 : k.2 < 9) (hb : st.board k = none) :
    elimStep st k = specElimStep st k ∧
      elimPass (k :: ks) st = elimPass ks (elimStep st k) := by
  constructor
  · have hposs := removeImpossibleValues_eq_spec hk1 hk2 hb
    simp only [elimStep, specElimStep]
    rw [hposs]
  · rfl

/-- Witness for C1: the elimination step at the unknown cell (0,8) of the
concrete grid `grid3` agrees with its specification. -/
theorem c1_witness :
    elimStep (initState grid3) (0, 8) = specElimStep (initState grid3) (0, 8) ∧
      elimPass ((0, 8) :: []) (initState grid3) =
        elimPass [] (elimStep (initState grid3) (0, 8)) :=
  c1_elimination_pass (initState grid3) (0, 8) [] (by decide) (by decide) (by decide)

/-- C2: the hidden-single step at a still-unknown cell tries that cell's
remaining candidates in order and commits exactly the first candidate that
is absent from the union of the candidate lists of all other tracked cells
in at least one of the cell's three groups, writing it to the grid and
collapsing the candidate list to that singleton. -/
theorem c2_hidden_single (keys : List Key) (st : SState) (k : Key)
    (_hb : st.board k = none) :
    hiddenStep keys st k = specHiddenStep keys st k := by
  unfold hiddenStep specHiddenStep
  rw [find?_congr (fun v => checkOnly_eq_spec keys st.cands k v) (st.cands k)]

/-- Witness for C2: the hidden-single step at the unknown cell (7,0) of
`grid3` agrees with its specification. -/
theorem c2_witness :
    hiddenStep (keysOf grid3) (initState grid3) (7, 0) =
      specHiddenStep (keysOf grid3) (initState grid3) (7, 0) :=
  c2_hidden_single (keysOf grid3) (initState grid3) (7, 0) (by decide)

/-- C3 counterexample: the claim that a resolved cell is dropped from
candidate tracking — so that no later pass touches its entry again — fails
on `grid3`: cell (0,8) is resolved during round 1 with candidate list [9],
yet round 2's elimination pass still visits it and rewrites its candidate
list (to the empty list). -/
theorem c3_counterexample :
    ¬ (∀ (b : Board) (k : Key) (n m : ℕ), n ≤ m →
        (iterState b n).board k ≠ none →
        (iterState b m).cands k = (iterState b n).cands k) := by
  intro h
  have h2 := h grid3 (0, 8) 1 2 (by omega) (by decide)
  exact absurd h2 (by decide)

/-- C3 (amended): resolved cells are never removed from the unknowns dict;
the passes keep iterating them.  The elimination step at a resolved cell
(whose list is the matching singleton or already empty) empties its
candidate list — the cell's own value now appears in its row — while
leaving the grid unchanged, and the hidden-single step at a cell with an
empty candidate list is a no-op. -/
theorem c3_resolved_cells_remain_tracked (st : SState) (k : Key) (v : ℕ)
    (keys : List Key) (hk2 : k.2 < 9) (hb : st.board k = some v)
    (hc : st.cands k = [v] ∨ st.cands k = []) :
    ((elimStep st k).board = st.board ∧ (elimStep st k).cands k = []) ∧
      (st.cands k = [] → hiddenStep keys st k = st) := by
  refine ⟨elimStep_resolved hk2 hb hc, fun hce => hiddenStep_of_find_none ?_⟩
  rw [hce]
  rfl

/-- Witness for C3 (amended): after round 1 of `grid3`, cell (0,8) is
resolved to 9 with candidate list [9]; the next elimination step empties the
list without touching the grid. -/
theorem c3_witness :
    (((elimStep (iterState grid3 1) (0, 8)).board = (iterState grid3 1).board ∧
      (elimStep (iterState grid3 1) (0, 8)).cands (0, 8) = []) ∧
      ((iterState grid3 1).cands (0, 8) = [] →
        hiddenStep (keysOf grid3) (iterState grid3 1) (0, 8) = iterState grid3 1)) :=
  c3_resolved_cells_remain_tracked (iterState grid3 1) (0, 8) 9 (keysOf grid3)
    (by decide) (by decide) (Or.inl (by decide))

/-- C4 counterexample: the claim that an emptied candidate set of a
still-unknown cell aborts the solve with a distinguishable Unsatisfiable
failure — rather than a silent stall leaving the cell unresolved — fails on
the contradictory grid `grid4`: cell (0,8)'s candidate list is empty after
round 1 while the cell is unknown, yet the run ends in an ordinary stall
with the cell still unresolved. -/
theorem c4_counterexample :
    ¬ (∀ (b : Board) (k : Key) (n : ℕ),
        (iterState b n).board k = none → (iterState b n).cands k = [] →
        ¬ ((solveBoard b).outcome = Outcome.stalled ∧
            (solveBoard b).board k = none)) := by
  intro h
  exact h grid4 (0, 8) 1 (by decide) (by decide) ⟨by decide, by decide⟩

/-- C4 (amended): the code has no Unsatisfiable path at all: when a cell is
still unknown and its candidate list has been pruned to empty, the cell
stays unresolved forever, the loop ends in a normal stall, and the report is
the same NOT SOLVED (with iteration count) as for any other stall. -/
theorem c4_empty_candidates_stall (b : Board) (k : Key) (n : ℕ)
    (hk1 : k.1 < 9) (hk2 : k.2 < 9)
    (hb : (iterState b n).board k = none) (hc : (iterState b n).cands k = []) :
    (solveBoard b).board k = none ∧
      (solveBoard b).outcome = Outcome.stalled ∧
      (solveBoard b).report = Report.notSolved (solveBoard b).iters := by
  obtain ⟨m, hm⟩ := solveLoop_trace (keysOf b) 82 (initState b) 0
  have hboard : (solveBoard b).board = (iterState b m).board := by
    rw [solveBoard_board, hm]
    rfl
  have hknone : (iterState b m).board k = none := by
    rcases le_or_lt n m with hle | hlt
    · have hpres := iterState_pres_empty hb hc (m - n)
      rw [show n + (m - n) = m by omega] at hpres
      exact hpres.1
    · exact iterState_none_mono (le_of_lt hlt) hb
  have hfinal : (solveBoard b).board k = none := by rw [hboard]; exact hknone
  refine ⟨hfinal, ?_, ?_⟩
  · have hnr := (solveLoop_done (keysOf b) 81 82 0 (initState b) (inv_initState b)
      (countX_le b) (by norm_num)).1
    rcases ho : (solveBoard b).outcome with _ | _ | _
    · rw [solveBoard_outcome] at ho
      exact absurd ho hnr
    · rfl
    · exfalso
      have hcompl := solveLoop_complete (keysOf b) 82 (initState b) 0
        (by rw [← solveBoard_outcome]; exact ho)
      have hx : hasUnknownB (solveBoard b).board = true :=
        hasUnknownB_iff.mpr ⟨k, hk1, hk2, hfinal⟩
      rw [solveBoard_board] at hx
      rw [hx] at hcompl
      cases hcompl
  · have hf : checkSolutionB (solveBoard b).board = false :=
      checkSolutionB_false_of_none hk1 hk2 hfinal
    rw [solveBoard_report, hf]
    rfl

/-- Witness for C4 (amended) on the contradictory grid `grid4`. -/
theorem c4_witness :
    (solveBoard grid4).board (0, 8) = none ∧
      (solveBoard grid4).outcome = Outcome.stalled ∧
      (solveBoard grid4).report = Report.notSolved (solveBoard grid4).iters :=
  c4_empty_candidates_stall grid4 (0, 8) 1 (by decide) (by decide) (by decide)
    (by decide)

/-- C5: monotonic resolution — a cell resolved on the grid is never changed
by any later write: both kinds of step (under the per-cell invariant, which
holds throughout a run) preserve every resolved symbol, and across full
rounds a symbol once present persists forever. -/
theorem c5_monotonic_resolution :
    (∀ (keys : List Key) (st : SState) (k p : Key) (v : ℕ), KeyOK st k →
        st.board p = some v →
        (elimStep st k).board p = some v ∧ (hiddenStep keys st k).board p = some v) ∧
      ∀ (b : Board) (n m : ℕ) (p : Key) (v : ℕ),
        (iterState b n).board p = some v → (iterState b (n + m)).board p = some v := by
  constructor
  · intro keys st k p v hok hp
    exact ⟨elimStep_le hok p v hp, hiddenStep_le hok p v hp⟩
  · intro b n m p v hp
    exact iterState_le b n m p v hp

/-- Witness for C5: cell (0,8) of `grid3` is resolved to 9 after round 1 and
still holds 9 after round 2. -/
theorem c5_witness : (iterState grid3 (1 + 1)).board (0, 8) = some 9 :=
  c5_monotonic_resolution.2 grid3 1 1 (0, 8) 9 (by decide)

/-- C6: for every input grid the solve loop reaches a terminal state,
Stalled or Complete, within at most 81 rounds. -/
theorem c6_bounded_rounds (b : Board) :
    ((solveBoard b).outcome = Outcome.stalled ∨
      (solveBoard b).outcome = Outcome.complete) ∧
      (solveBoard b).iters ≤ 81 := by
  have h := solveLoop_done (keysOf b) 81 82 0 (initState b) (inv_initState b)
    (countX_le b) (by norm_num)
  constructor
  · rcases ho : (solveBoard b).outcome with _ | _ | _
    · rw [solveBoard_outcome] at ho
      exact absurd ho h.1
    · left; rfl
    · right; rfl
  · rw [solveBoard_iters]
    have h2 := h.2
    omega

/-- C7: the verifier succeeds exactly when every row, column and box holds
nine distinct entries, no cell is the unknown marker, every symbol lies in
[1, 9], and the 81 cells sum to 405. -/
theorem c7_verifier (b : Board) : checkSolutionB b = true ↔ specSolved b :=
  checkSolution_iff_spec b

/-- C8: monotone elimination — from each round to the next, no cell's
candidate list ever regains a symbol, and its length never grows. -/
theorem c8_monotone_elimination (b : Board) (n : ℕ) (k : Key) :
    (iterState b (n + 1)).cands k ⊆ (iterState b n).cands k ∧
      ((iterState b (n + 1)).cands k).length ≤ ((iterState b n).cands k).length := by
  rw [iterState_succ]
  exact roundPass_shrink (keysOf b) (iterState b n) k

/-- C9: whichever way the loop ended, the final report is SOLVED with the
iteration count exactly when the verifier passes on the final grid, and NOT
SOLVED with the iteration count otherwise. -/
theorem c9_reporting (b : Board) :
    ((solveBoard b).report = Report.solved (solveBoard b).iters ∨
      (solveBoard b).report = Report.notSolved (solveBoard b).iters) ∧
      ((solveBoard b).report = Report.solved (solveBoard b).iters ↔
        specSolved (solveBoard b).board) := by
  rcases h : checkSolutionB (solveBoard b).board with _ | _
  · have hr : (solveBoard b).report = Report.notSolved (solveBoard b).iters := by
      rw [solveBoard_report, h]
      rfl
    refine ⟨Or.inr hr, iff_of_false ?_ ?_⟩
    · rw [hr]
      intro he
      exact Report.noConfusion he
    · intro hs
      rw [(checkSolution_iff_spec _).mpr hs] at h
      cases h
  · have hr : (solveBoard b).report = Report.solved (solveBoard b).iters := by
      rw [solveBoard_report, h]
      rfl
    exact ⟨Or.inl hr, iff_of_true hr ((checkSolution_iff_spec _).mp h)⟩

/-- C10: clue preservation — every cell resolved in the input grid holds the
same symbol in the grid returned by the solver. -/
theorem c10_clue_preservation (b : Board) (p : Key) (v : ℕ) (h : b p = some v) :
    (solveBoard b).board p = some v := by
  obtain ⟨m, hm⟩ := solveLoop_trace (keysOf b) 82 (initState b) 0
  have h0 : (iterState b 0).board p = some v := h
  have hle := iterState_le b 0 m p v h0
  rw [show (0 : ℕ) + m = m by omega] at hle
  rw [solveBoard_board, hm]
  exact hle

/-- Witness for C10: the clue 1 at cell (0,0) of `grid4` survives solving. -/
theorem c10_witness : (solveBoard grid4).board (0, 0) = some 1 :=
  c10_clue_preservation grid4 (0, 0) 1 (by decide)

end Sudsolve
